import Mathlib

/-!
Verification of the proof-of-work block miner in `src/mini_miner.rs`.

The Rust source is embedded shallowly: machine integers become `Nat`/`Int`
with explicit reduction modulo 2^32 where the source wraps, byte slices
become `List Nat` (each element a byte value), fallible paths become
`Except`/`Option`.
-/

namespace MiniMiner

/-- One word of 32 bits: reduce a `Nat` modulo 2^32 (the `u32` wrap). -/
def w32 (n : Nat) : Nat := n % 4294967296

/-- Rotate a 32-bit word right by `n` positions. -/
def rotr (n x : Nat) : Nat := w32 ((x >>> n) ||| (x <<< (32 - n)))

/-- SHA-256 `Ch` function; `¬x` is `x ^^^ 0xFFFFFFFF` on 32-bit words. -/
def shaCh (x y z : Nat) : Nat := (x &&& y) ^^^ ((x ^^^ 4294967295) &&& z)

/-- SHA-256 `Maj` function. -/
def shaMaj (x y z : Nat) : Nat := (x &&& y) ^^^ (x &&& z) ^^^ (y &&& z)

/-- SHA-256 big sigma 0. -/
def bigSigma0 (x : Nat) : Nat := rotr 2 x ^^^ rotr 13 x ^^^ rotr 22 x

/-- SHA-256 big sigma 1. -/
def bigSigma1 (x : Nat) : Nat := rotr 6 x ^^^ rotr 11 x ^^^ rotr 25 x

/-- SHA-256 small sigma 0. -/
def smallSigma0 (x : Nat) : Nat := rotr 7 x ^^^ rotr 18 x ^^^ (x >>> 3)

/-- SHA-256 small sigma 1. -/
def smallSigma1 (x : Nat) : Nat := rotr 17 x ^^^ rotr 19 x ^^^ (x >>> 10)

/-- The 64 SHA-256 round constants. -/
def shaK : List Nat :=
  [1116352408, 1899447441, 3049323471, 3921009573, 961987163,
   1508970993, 2453635748, 2870763221, 3624381080, 310598401,
   607225278, 1426881987, 1925078388, 2162078206, 2614888103,
   3248222580, 3835390401, 4022224774, 264347078, 604807628,
   770255983, 1249150122, 1555081692, 1996064986, 2554220882,
   2821834349, 2952996808, 3210313671, 3336571891, 3584528711,
   113926993, 338241895, 666307205, 773529912, 1294757372,
   1396182291, 1695183700, 1986661051, 2177026350, 2456956037,
   2730485921, 2820302411, 3259730800, 3345764771, 3516065817,
   3600352804, 4094571909, 275423344, 430227734, 506948616,
   659060556, 883997877, 958139571, 1322822218, 1537002063,
   1747873779, 1955562222, 2024104815, 2227730452, 2361852424,
   2428436474, 2756734187, 3204031479, 3329325298]

/-- The eight 32-bit words of the SHA-256 working state. -/
structure Sha256State where
  a : Nat
  b : Nat
  c : Nat
  d : Nat
  e : Nat
  f : Nat
  g : Nat
  h : Nat

/-- SHA-256 initial hash value. -/
def initState : Sha256State :=
  ⟨1779033703, 3144134277, 1013904242, 2773480762,
   1359893119, 2600822924, 528734635, 1541459225⟩

/-- One SHA-256 compression round with round constant `k` and schedule word `w`. -/
def compressStep (k w : Nat) (st : Sha256State) : Sha256State :=
  let t1 := w32 (st.h + bigSigma1 st.e + shaCh st.e st.f st.g + k + w)
  let t2 := w32 (bigSigma0 st.a + shaMaj st.a st.b st.c)
  ⟨w32 (t1 + t2), st.a, st.b, st.c, w32 (st.d + t1), st.e, st.f, st.g⟩

/-- Run the 64 compression rounds over the paired round constants and schedule words. -/
def compressRounds : Sha256State → List (Nat × Nat) → Sha256State
  | st, [] => st
  | st, (k, w) :: rest => compressRounds (compressStep k w st) rest

/-- Group a big-endian byte list into 32-bit words (four bytes each). -/
def bytesToWords : List Nat → List Nat
  | a :: b :: c :: d :: rest => (a * 16777216 + b * 65536 + c * 256 + d) :: bytesToWords rest
  | _ => []

/-- Extend the 16-word message block by `fuel` further schedule words. -/
def extendW : List Nat → Nat → List Nat
  | w, 0 => w
  | w, f + 1 =>
    let t := w.length
    extendW
      (w ++ [w32 (smallSigma1 (w.getD (t - 2) 0) + w.getD (t - 7) 0 +
                  smallSigma0 (w.getD (t - 15) 0) + w.getD (t - 16) 0)]) f

/-- The 64-word message schedule of one 64-byte chunk. -/
def messageSchedule (chunk : List Nat) : List Nat := extendW (bytesToWords chunk) 48

/-- Add two states word-wise modulo 2^32. -/
def addState (x y : Sha256State) : Sha256State :=
  ⟨w32 (x.a + y.a), w32 (x.b + y.b), w32 (x.c + y.c), w32 (x.d + y.d),
   w32 (x.e + y.e), w32 (x.f + y.f), w32 (x.g + y.g), w32 (x.h + y.h)⟩

/-- Process one 64-byte chunk: compress and add back into the chaining state. -/
def compressBlock (st : Sha256State) (chunk : List Nat) : Sha256State :=
  addState st (compressRounds st (List.zip shaK (messageSchedule chunk)))

/-- Fold the chaining state over successive 64-byte chunks; `fuel` bounds the recursion
(one unit of fuel per chunk is enough since each step consumes 64 bytes). -/
def sha256Chunks : Sha256State → Nat → List Nat → Sha256State
  | st, 0, _ => st
  | st, _ + 1, [] => st
  | st, fuel + 1, x :: rest =>
    sha256Chunks (compressBlock st ((x :: rest).take 64)) fuel ((x :: rest).drop 64)

/-- The 8-byte big-endian encoding of a 64-bit length value. -/
def beBytes8 (n : Nat) : List Nat :=
  [(n >>> 56) &&& 255, (n >>> 48) &&& 255, (n >>> 40) &&& 255, (n >>> 32) &&& 255,
   (n >>> 24) &&& 255, (n >>> 16) &&& 255, (n >>> 8) &&& 255, n &&& 255]

/-- SHA-256 padding: append 0x80, zero bytes to 56 mod 64, then the bit length. -/
def padMessage (msg : List Nat) : List Nat :=
  let len := msg.length
  msg ++ [128] ++ List.replicate ((119 - (len % 64)) % 64) 0 ++ beBytes8 (8 * len)

/-- Serialize the final state as 32 big-endian bytes. -/
def stateToBytes (st : Sha256State) : List Nat :=
  [(st.a >>> 24) &&& 255, (st.a >>> 16) &&& 255, (st.a >>> 8) &&& 255, st.a &&& 255,
   (st.b >>> 24) &&& 255, (st.b >>> 16) &&& 255, (st.b >>> 8) &&& 255, st.b &&& 255,
   (st.c >>> 24) &&& 255, (st.c >>> 16) &&& 255, (st.c >>> 8) &&& 255, st.c &&& 255,
   (st.d >>> 24) &&& 255, (st.d >>> 16) &&& 255, (st.d >>> 8) &&& 255, st.d &&& 255,
   (st.e >>> 24) &&& 255, (st.e >>> 16) &&& 255, (st.e >>> 8) &&& 255, st.e &&& 255,
   (st.f >>> 24) &&& 255, (st.f >>> 16) &&& 255, (st.f >>> 8) &&& 255, st.f &&& 255,
   (st.g >>> 24) &&& 255, (st.g >>> 16) &&& 255, (st.g >>> 8) &&& 255, st.g &&& 255,
   (st.h >>> 24) &&& 255, (st.h >>> 16) &&& 255, (st.h >>> 8) &&& 255, st.h &&& 255]

/-- SHA-256 of a byte sequence, as 32 bytes. -/
def sha256Bytes (msg : List Nat) : List Nat :=
  let padded := padMessage msg
  stateToBytes (sha256Chunks initState padded.length padded)

/-- UTF-8 encoding of one character (the byte sequence Rust's `String::into_bytes` yields). -/
def utf8Char (c : Char) : List Nat :=
  let n := c.toNat
  if n < 128 then [n]
  else if n < 2048 then [192 + n / 64, 128 + n % 64]
  else if n < 65536 then [224 + n / 4096, 128 + (n / 64) % 64, 128 + n % 64]
  else [240 + n / 262144, 128 + (n / 4096) % 64, 128 + (n / 64) % 64, 128 + n % 64]

/-- UTF-8 bytes of a string (`s.into_bytes()` in the source). -/
def utf8Bytes (s : String) : List Nat := (s.data.map utf8Char).flatten

/-- Model of `calculate_sha256` from `mini_miner.rs`: SHA-256 of the UTF-8 bytes of a string. -/
def calculate_sha256 (s : String) : List Nat := sha256Bytes (utf8Bytes s)

/-- An entry of the block's `data` vector (`struct Data` in `mini_miner.rs`):
a string payload and an `i32` value, serialized as a two-element tuple. -/
structure Data where
  data : String
  nonce : Int
deriving DecidableEq

/-- Rust `struct Block` from `mini_miner.rs`: shared entry list (`Cow<Vec<Data>>`, modelled by
the list it dereferences to) and an optional `i32` nonce. -/
structure Block where
  data : List Data
  nonce : Option Int
deriving DecidableEq

/-- Model of `Block::with_nonce`: a new block sharing the same entries, with `nonce = Some n`. -/
def Block.with_nonce (b : Block) (nonce : Int) : Block :=
  { data := b.data, nonce := some nonce }

/-- Rust `struct MiniMinerProblem`: a difficulty (`u32`) and a block. -/
structure MiniMinerProblem where
  difficulty : Nat
  block : Block

/-- Rust `struct MiniMinerAnswer`: the winning nonce. -/
structure MiniMinerAnswer where
  nonce : Int
deriving DecidableEq

/-! ### The serde_json value model and `serde_json::to_string`

`is_block_valid` hashes `serde_json::to_string(block)`.  The derived `Serialize`
instances build a JSON value (struct fields in declaration order, `Data` as a
two-element tuple via `Serialize_tuple`, `Option` as `null`/value), which
`serde_json::to_string` renders compactly with no whitespace. -/

/-- JSON values (the serde data model that the derived instances target). -/
inductive Json where
  | str : String → Json
  | int : Int → Json
  | null : Json
  | arr : List Json → Json
  | obj : List (String × Json) → Json

/-- Derived `Serialize_tuple` for `Data`: the `[payload, value]` two-element array. -/
def Data.toJson (d : Data) : Json := Json.arr [Json.str d.data, Json.int d.nonce]

/-- serde's `Option<i32>` serialization: `None` is `null`, `Some n` is the number. -/
def nonceToJson : Option Int → Json
  | none => Json.null
  | some n => Json.int n

/-- Derived `Serialize` for `Block`: an object with fields `data` then `nonce`,
in declaration order. -/
def Block.toJson (b : Block) : Json :=
  Json.obj [("data", Json.arr (b.data.map Data.toJson)), ("nonce", nonceToJson b.nonce)]

/-- One hex digit, lower case, as `serde_json` prints `\u` escapes. -/
def hexDigit (n : Nat) : Char :=
  if n < 10 then Char.ofNat (48 + n) else Char.ofNat (87 + n)

/-- String escaping of `serde_json` for one character: quote and backslash are escaped,
control characters below 0x20 use the short escapes or `\u00XX`, all else is literal. -/
def escapeChar (c : Char) : String :=
  if c = '"' then ("\\\"")
  else if c = '\\' then ("\\\\")
  else if c.toNat = 8 then ("\\b")
  else if c.toNat = 9 then ("\\t")
  else if c.toNat = 10 then ("\\n")
  else if c.toNat = 12 then ("\\f")
  else if c.toNat = 13 then ("\\r")
  else if c.toNat < 32 then ("\\u00") ++ String.mk [hexDigit (c.toNat / 16), hexDigit (c.toNat % 16)]
  else String.mk [c]

/-- A JSON string literal: quoted, characters escaped as `serde_json` does. -/
def escapeString (s : String) : String :=
  "\"" ++ String.join (s.data.map escapeChar) ++ "\""

mutual

/-- Compact rendering by `serde_json::to_string` of a JSON value: no whitespace,
object fields in their given order. -/
def renderJson : Json → String
  | Json.str s => escapeString s
  | Json.int n => toString n
  | Json.null => "null"
  | Json.arr xs => "[" ++ renderList xs ++ "]"
  | Json.obj fs => "\x7b" ++ renderFields fs ++ "\x7d"

/-- Comma-separated rendering of array elements, in order. -/
def renderList : List Json → String
  | [] => ""
  | [x] => renderJson x
  | x :: y :: xs => renderJson x ++ "," ++ renderList (y :: xs)

/-- Comma-separated rendering of object fields, in order, as `"key":value`. -/
def renderFields : List (String × Json) → String
  | [] => ""
  | [(k, v)] => escapeString k ++ ":" ++ renderJson v
  | (k, v) :: f :: fs => escapeString k ++ ":" ++ renderJson v ++ "," ++ renderFields (f :: fs)

end

/-- Model of `serde_json::to_string(block)`: the canonical encoding hashed by `is_block_valid`. -/
def encodeString (b : Block) : String := renderJson (Block.toJson b)

/-- Model of `get_mask` from `mini_miner.rs`: the byte mask covering `min difficulty 8` leading bits. -/
def get_mask (difficulty : Nat) : Nat :=
  match difficulty with
  | 0 => 0
  | 1 => 128
  | 2 => 192
  | 3 => 224
  | 4 => 240
  | 5 => 248
  | 6 => 252
  | 7 => 254
  | _ => 255

/-- Model of `check_difficulty` from `mini_miner.rs`: walk the digest byte by byte while the
remaining requirement is positive, failing on any masked set bit; the remaining
requirement drops by 8 per byte (`saturating_sub`), and the result is whether it
reached zero. -/
def check_difficulty : List Nat → Nat → Bool
  | _, 0 => true
  | [], _ + 1 => false
  | byte :: rest, d + 1 =>
    if byte &&& get_mask (d + 1) ≠ 0 then false
    else check_difficulty rest (d + 1 - 8)

/-- Model of `is_block_valid` from `mini_miner.rs`: serialize, hash, and check the difficulty. -/
def is_block_valid (b : Block) (difficulty : Nat) : Bool :=
  check_difficulty (calculate_sha256 (encodeString b)) difficulty

/-- Value of `i32::MAX`, the top of the nonce search range. -/
def i32Max : Int := 2147483647

/-- The number of candidate nonces `0..=i32::MAX`. -/
def numNonces : Nat := 2147483648

/-- The sequential first-fit enumeration of candidate blocks starting at nonce `start`,
testing at most `fuel` candidates: each candidate is `with_nonce`, tested by
`is_block_valid`.  This is the deterministic refinement of the rayon
`find_any` pipeline in `MiniMiner::solve` (one conforming schedule). -/
def findBlockAux (b : Block) (difficulty : Nat) : Nat → Nat → Option Block
  | 0, _ => none
  | fuel + 1, start =>
    let cand := b.with_nonce (start : Int)
    if is_block_valid cand difficulty then some cand
    else findBlockAux b difficulty fuel (start + 1)

/-- The search over the full nonce range `0..=i32::MAX`. -/
def find_any_block (b : Block) (difficulty : Nat) : Option Block :=
  findBlockAux b difficulty numNonces 0

/-- The error message of the exhaustion branch of `solve` (`anyhow!("No block found")`). -/
def noBlockMsg : String := "No block found"

/-- The panic message of `valid_block.nonce.expect("None nonce")`. -/
def noneNonceMsg : String := "None nonce"

/-- Model of `Option::expect` on the found block's nonce; the panic is modelled as an error value. -/
def expectNonce : Option Int → Except String Int
  | some n => Except.ok n
  | none => Except.error noneNonceMsg

/-- Model of `MiniMiner::solve`: search the nonce range, extract the winning nonce, or report
that no block was found.  The parallel `find_any` is refined to the sequential
first-fit schedule; `okPossible`/`exhausted` below describe the full set of
outcomes the parallel search permits. -/
def solve (p : MiniMinerProblem) : Except String MiniMinerAnswer :=
  match find_any_block p.block p.difficulty with
  | some validBlock =>
    match expectNonce validBlock.nonce with
    | Except.ok n => Except.ok { nonce := n }
    | Except.error e => Except.error e
  | none => Except.error noBlockMsg

/-- The success results rayon's `find_any` may deliver in `solve`: any in-range nonce
whose candidate block passes the difficulty check (`find_any` returns any match,
not necessarily the numerically first). -/
def okPossible (p : MiniMinerProblem) (a : MiniMinerAnswer) : Prop :=
  0 ≤ a.nonce ∧ a.nonce ≤ i32Max ∧
    is_block_valid (p.block.with_nonce a.nonce) p.difficulty = true

/-- The condition under which `find_any` (on any schedule) returns `None` and `solve`
reports its error: no candidate in the whole range passes the check. -/
def exhausted (p : MiniMinerProblem) : Prop :=
  ∀ n : Int, 0 ≤ n → n ≤ i32Max →
    is_block_valid (p.block.with_nonce n) p.difficulty = false

/-! ### Leading zero bits of a digest

`digestBit hash i` is bit `i` of the digest read from the most significant end:
bit 0 is the top bit of the first byte.  The spec's "leading zero bits" are the
bits before the first `i` with `digestBit hash i = true`. -/

/-- Bit `i` of a digest, counted from the most significant bit of the first byte. -/
def digestBit : List Nat → Nat → Bool
  | [], _ => false
  | byte :: rest, i => if i < 8 then byte.testBit (7 - i) else digestBit rest (i - 8)

/-- A 32-byte digest with exactly 24 leading zero bits, for instantiating C1. -/
def exampleDigest : List Nat := [0, 0, 0, 255] ++ List.replicate 28 0
/-- An empty problem at difficulty zero, used to instantiate the search theorems. -/
def exampleProblem0 : MiniMinerProblem :=
  { difficulty := 0, block := { data := [], nonce := none } }

/-- The same problem with a different input nonce, for the nonce-independence claim. -/
def exampleProblemNonce7 : MiniMinerProblem :=
  { difficulty := 0, block := { data := [], nonce := some 7 } }
/-! ### C2: the canonical layout, written out as the spec words it

The following definitions restate the spec's description of the wire format —
entries as `[payload, value]` two-element arrays in original order inside the
`data` field, followed by the block's own `nonce` field, with no whitespace —
to be compared against the source's `serde_json::to_string` rendering. -/

/-- The spec's `[payload, value]` pair layout for one entry. -/
def specEntryString (e : Data) : String :=
  "[" ++ escapeString e.data ++ "," ++ toString e.nonce ++ "]"

/-- Comma separation with no incidental whitespace. -/
def specJoin : List String → String
  | [] => ""
  | [s] => s
  | s :: t :: rest => s ++ "," ++ specJoin (t :: rest)

/-- The spec's rendering of the optional nonce value. -/
def specNonceString : Option Int → String
  | none => "null"
  | some n => toString n

/-- The fixed positional layout the spec mandates: the entry pairs in original
order, then the block's own nonce field, nothing else and no whitespace. -/
def specCanonicalString (entries : List Data) (nonce : Option Int) : String :=
  "\x7b" ++ "\"data\"" ++ ":" ++ "[" ++ specJoin (entries.map specEntryString) ++ "]" ++ "," ++
    "\"nonce\"" ++ ":" ++ specNonceString nonce ++ "\x7d"
/-! ### C8: decoding, at the serde data-model level

The derived `Deserialize` instances of `Block` and `Data` map JSON values back to
Rust values: an object with `data` and `nonce` fields, entries as two-element
`[string, integer]` arrays, `null`/integer for the optional nonce.  (Parsing
text into a JSON value is `serde_json` library code, outside this repository;
decoding is therefore modelled on the value level the derive targets.) -/

/-- serde's field lookup in a JSON object. -/
def lookupField : List (String × Json) → String → Option Json
  | [], _ => none
  | (k, v) :: rest, key => if k = key then some v else lookupField rest key

/-- Derived `Deserialize_tuple` for `Data`: expects the `[payload, value]` pair. -/
def dataFromJson : Json → Option Data
  | Json.arr [Json.str s, Json.int n] => some { data := s, nonce := n }
  | _ => none

/-- Decode each entry of the `data` array in order. -/
def dataListFromJson : List Json → Option (List Data)
  | [] => some []
  | j :: rest =>
    match dataFromJson j, dataListFromJson rest with
    | some d, some ds => some (d :: ds)
    | _, _ => none

/-- serde's `Option<i32>` deserialization: `null` or an integer. -/
def nonceFromJson : Json → Option (Option Int)
  | Json.null => some none
  | Json.int n => some (some n)
  | _ => none

/-- Derived `Deserialize` for `Block`: an object whose `data` field is an array of
entry pairs and whose `nonce` field is `null` or an integer. -/
def blockFromJson : Json → Option Block
  | Json.obj fields =>
    match lookupField fields ("data"), lookupField fields ("nonce") with
    | some (Json.arr items), some nj =>
      match dataListFromJson items, nonceFromJson nj with
      | some ds, some nOpt => some { data := ds, nonce := nOpt }
      | _, _ => none
    | _, _ => none
  | _ => none

/-- The mask is the full byte once at least eight bits are still required. -/
theorem get_mask_eight {d : Nat} (h : 8 ≤ d) : get_mask d = 255 := by
  obtain ⟨k, rfl⟩ := Nat.exists_eq_add_of_le h
  rw [Nat.add_comm]
  rfl

set_option maxRecDepth 4096 in
/-- A byte passes the mask test exactly when its `min d 8` leading bits are all zero. -/
theorem get_mask_zero_iff (d : Nat) (hd : 1 ≤ d) (byte : Nat) (hb : byte < 256) :
    byte &&& get_mask d = 0 ↔ ∀ j, j < min d 8 → byte.testBit (7 - j) = false := by
  rcases Nat.lt_or_ge d 8 with h8 | h8
  · interval_cases d <;> (revert hb; revert byte; decide)
  · rw [get_mask_eight h8, show min d 8 = 8 from by omega]
    revert hb; revert byte; decide

/-- Beyond the digest's bit length every bit reads as zero. -/
theorem digestBit_of_ge (hash : List Nat) (i : Nat) (h : 8 * hash.length ≤ i) :
    digestBit hash i = false := by
  induction hash generalizing i with
  | nil => simp [digestBit]
  | cons byte rest ih =>
    simp only [List.length_cons] at h
    simp only [digestBit]
    rw [if_neg (by omega)]
    exact ih (i - 8) (by omega)

/-- Characterization of `check_difficulty`: it accepts exactly when the required
count fits in the digest and all required leading bits are zero. -/
theorem check_difficulty_true_iff (hash : List Nat) (d : Nat)
    (hb : ∀ byte ∈ hash, byte < 256) :
    check_difficulty hash d = true ↔
      d ≤ 8 * hash.length ∧ ∀ i, i < d → digestBit hash i = false := by
  induction hash generalizing d with
  | nil =>
    cases d with
    | zero => simp [check_difficulty]
    | succ d' => simp [check_difficulty]
  | cons byte rest ih =>
    cases d with
    | zero => simp [check_difficulty]
    | succ d' =>
      have hbyte : byte < 256 := hb byte (List.mem_cons_self byte rest)
      have hrest : ∀ x ∈ rest, x < 256 := fun x hx => hb x (List.mem_cons_of_mem byte hx)
      by_cases hmask : byte &&& get_mask (d' + 1) = 0
      · have hbits := (get_mask_zero_iff (d' + 1) (Nat.succ_le_succ (Nat.zero_le d')) byte hbyte).mp hmask
        rw [show check_difficulty (byte :: rest) (d' + 1) = check_difficulty rest (d' + 1 - 8) from
          by simp [check_difficulty, hmask]]
        rw [ih (d' + 1 - 8) hrest]
        constructor
        · rintro ⟨h1, h2⟩
          refine ⟨by simp only [List.length_cons]; omega, ?_⟩
          intro i hi
          by_cases hi8 : i < 8
          · simp only [digestBit, if_pos hi8]
            exact hbits i (by omega)
          · simp only [digestBit, if_neg hi8]
            exact h2 (i - 8) (by omega)
        · rintro ⟨h1, h2⟩
          simp only [List.length_cons] at h1
          refine ⟨by omega, ?_⟩
          intro i hi
          have hbit := h2 (i + 8) (by omega)
          simp only [digestBit, if_neg (by omega : ¬ i + 8 < 8), Nat.add_sub_cancel] at hbit
          exact hbit
      · rw [show check_difficulty (byte :: rest) (d' + 1) = false from
          by simp [check_difficulty, hmask]]
        have hex : ∃ j, j < min (d' + 1) 8 ∧ byte.testBit (7 - j) = true := by
          by_contra hc
          push_neg at hc
          exact hmask ((get_mask_zero_iff (d' + 1) (Nat.succ_le_succ (Nat.zero_le d')) byte hbyte).mpr
            (fun j hj => by simpa using hc j hj))
        obtain ⟨j, hj, hbit⟩ := hex
        constructor
        · intro h
          exact absurd h (by simp)
        · rintro ⟨h1, h2⟩
          have := h2 j (by omega)
          rw [show digestBit (byte :: rest) j = byte.testBit (7 - j) from
            by simp [digestBit, show j < 8 from by omega]] at this
          rw [hbit] at this
          exact absurd this (by simp)

/-- A required count exceeding the digest's bit length is never met. -/
theorem check_difficulty_false_of_gt (hash : List Nat) (d : Nat)
    (h : 8 * hash.length < d) : check_difficulty hash d = false := by
  induction hash generalizing d with
  | nil =>
    cases d with
    | zero => omega
    | succ d' => rfl
  | cons byte rest ih =>
    simp only [List.length_cons] at h
    cases d with
    | zero => omega
    | succ d' =>
      by_cases hmask : byte &&& get_mask (d' + 1) = 0
      · simp only [check_difficulty, hmask]
        rw [if_neg (by simp)]
        exact ih (d' + 1 - 8) (by omega)
      · simp [check_difficulty, hmask]

/-- The digest always has 32 bytes (eight 32-bit words, four bytes each). -/
theorem calculate_sha256_length (s : String) : (calculate_sha256 s).length = 32 := rfl

/-- The sequential search reports `none` exactly when every candidate in its window
fails the difficulty check. -/
theorem findBlockAux_none_iff (b : Block) (difficulty : Nat) (fuel start : Nat) :
    findBlockAux b difficulty fuel start = none ↔
      ∀ j, j < fuel →
        is_block_valid (b.with_nonce ((start + j : Nat) : Int)) difficulty = false := by
  induction fuel generalizing start with
  | zero => simp [findBlockAux]
  | succ f ih =>
    simp only [findBlockAux]
    by_cases hv : is_block_valid (b.with_nonce (start : Int)) difficulty = true
    · rw [if_pos hv]
      simp only [reduceCtorEq, false_iff]
      intro hall
      have h0 := hall 0 (by omega)
      rw [Nat.add_zero] at h0
      rw [hv] at h0
      exact absurd h0 (by simp)
    · rw [if_neg hv]
      rw [Bool.not_eq_true] at hv
      rw [ih (start + 1)]
      constructor
      · intro h j hj
        cases j with
        | zero => rw [Nat.add_zero]; exact hv
        | succ j' =>
          have := h j' (by omega)
          rw [show start + 1 + j' = start + (j' + 1) from by omega] at this
          exact this
      · intro h j hj
        have := h (j + 1) (by omega)
        rw [show start + (j + 1) = start + 1 + j from by omega] at this
        exact this

/-- Any block the sequential search returns is a `with_nonce` candidate from its
window that passes the difficulty check. -/
theorem findBlockAux_some (b : Block) (difficulty : Nat) (fuel start : Nat)
    (blk : Block) (h : findBlockAux b difficulty fuel start = some blk) :
    ∃ j, j < fuel ∧ blk = b.with_nonce ((start + j : Nat) : Int) ∧
      is_block_valid blk difficulty = true := by
  induction fuel generalizing start with
  | zero => simp [findBlockAux] at h
  | succ f ih =>
    simp only [findBlockAux] at h
    by_cases hv : is_block_valid (b.with_nonce (start : Int)) difficulty = true
    · rw [if_pos hv] at h
      refine ⟨0, by omega, ?_, ?_⟩
      · rw [Nat.add_zero]
        exact (Option.some_injective _ h).symm
      · rw [← Option.some_injective _ h]
        exact hv
    · rw [if_neg hv] at h
      obtain ⟨j, hj, hblk, hval⟩ := ih (start + 1) h
      refine ⟨j + 1, by omega, ?_, hval⟩
      rw [show start + (j + 1) = start + 1 + j from by omega]
      exact hblk

/-- C1: for every 32-byte digest that has exactly `k` leading zero bits followed by a
set bit, `check_difficulty` returns `true` for every difficulty `d` with `0 ≤ d ≤ k`
and `false` for every `d` with `k + 1 ≤ d ≤ 256`. -/
theorem c1_check_difficulty_boundary
    (hash : List Nat) (k : Nat)
    (hlen : hash.length = 32)
    (hbytes : ∀ byte ∈ hash, byte < 256)
    (hzero : ∀ i, i < k → digestBit hash i = false)
    (hset : digestBit hash k = true) :
    (∀ d, d ≤ k → check_difficulty hash d = true) ∧
    (∀ d, k + 1 ≤ d → d ≤ 256 → check_difficulty hash d = false) := by
  have hk : k < 256 := by
    by_contra hk
    push_neg at hk
    have hfar := digestBit_of_ge hash k (by rw [hlen]; omega)
    rw [hset] at hfar
    exact absurd hfar (by simp)
  constructor
  · intro d hd
    rw [check_difficulty_true_iff hash d hbytes]
    exact ⟨by rw [hlen]; omega, fun i hi => hzero i (by omega)⟩
  · intro d hd1 hd2
    cases hc : check_difficulty hash d with
    | false => rfl
    | true =>
      have hbit := ((check_difficulty_true_iff hash d hbytes).mp hc).2 k (by omega)
      rw [hset] at hbit
      exact absurd hbit (by simp)

theorem c1_check_difficulty_boundary_witness :
    check_difficulty exampleDigest 24 = true ∧ check_difficulty exampleDigest 25 = false :=
  ⟨(c1_check_difficulty_boundary exampleDigest 24 (by decide) (by decide) (by decide)
      (by decide)).1 24 (by decide),
   (c1_check_difficulty_boundary exampleDigest 24 (by decide) (by decide) (by decide)
      (by decide)).2 25 (by decide) (by decide)⟩

/-- C5 counterexample: the digest `[0x00, 0x00, 0x00, 0xF0]` has 24 leading zero bits,
not 28; the claim asserts `check_difficulty` is true for every difficulty up to 28,
but already at difficulty 25 (which is ≤ 28) it returns false. -/
theorem c5_counterexample_difficulty_25 :
    25 ≤ 28 ∧ check_difficulty [0, 0, 0, 240] 25 = false := by decide

/-- C5 amended: for the digest `[0x00, 0x00, 0x00, 0xF0]` (24 leading zero bits),
`check_difficulty` returns true for every difficulty in `0..=24` and false for every
difficulty in `25..=32`. -/
theorem c5_f0_digest_boundary :
    (∀ d, d ≤ 24 → check_difficulty [0, 0, 0, 240] d = true) ∧
    (∀ d, 25 ≤ d → d ≤ 32 → check_difficulty [0, 0, 0, 240] d = false) := by
  constructor
  · decide
  · decide

theorem c5_f0_digest_boundary_witness :
    check_difficulty [0, 0, 0, 240] 24 = true ∧ check_difficulty [0, 0, 0, 240] 25 = false :=
  ⟨c5_f0_digest_boundary.1 24 (by decide), c5_f0_digest_boundary.2 25 (by decide) (by decide)⟩

/-- C7: a difficulty above 256 is rejected for every 32-byte digest — `check_difficulty`
just returns `false`, no error is special-cased — and `solve` then simply exhausts the
whole nonce range and reports the ordinary not-found error. -/
theorem c7_difficulty_above_bit_length
    :
    (∀ (hash : List Nat) (d : Nat), hash.length = 32 → 256 < d →
      check_difficulty hash d = false) ∧
    (∀ p : MiniMinerProblem, 256 < p.difficulty →
      solve p = Except.error noBlockMsg) := by
  constructor
  · intro hash d hlen hd
    exact check_difficulty_false_of_gt hash d (by rw [hlen]; omega)
  · intro p hp
    have hall : ∀ j, j < numNonces →
        is_block_valid (p.block.with_nonce ((0 + j : Nat) : Int)) p.difficulty = false := by
      intro j _
      show check_difficulty (calculate_sha256
        (encodeString (p.block.with_nonce ((0 + j : Nat) : Int)))) p.difficulty = false
      exact check_difficulty_false_of_gt _ _ (by rw [calculate_sha256_length]; omega)
    have hnone : find_any_block p.block p.difficulty = none :=
      (findBlockAux_none_iff p.block p.difficulty numNonces 0).mpr hall
    simp [solve, hnone]

theorem c7_difficulty_above_bit_length_witness :
    check_difficulty (List.replicate 32 0) 257 = false ∧
    solve { difficulty := 257, block := { data := [], nonce := none } } =
      Except.error noBlockMsg :=
  ⟨c7_difficulty_above_bit_length.1 (List.replicate 32 0) 257 (by decide) (by decide),
   c7_difficulty_above_bit_length.2 { difficulty := 257, block := { data := [], nonce := none } }
     (by decide)⟩

/-- Difficulty zero is met by any digest (the loop body never runs). -/
theorem check_difficulty_zero (hash : List Nat) : check_difficulty hash 0 = true := by
  cases hash <;> rfl

/-- C3: whenever `solve` returns an answer — under the sequential schedule or any
`find_any` outcome — the nonce lies in `0..=i32::MAX` and the SHA-256 digest of the
canonical encoding of the block with that nonce meets the difficulty. -/
theorem c3_answer_in_range_and_valid (p : MiniMinerProblem) (a : MiniMinerAnswer)
    (h : solve p = Except.ok a ∨ okPossible p a) :
    0 ≤ a.nonce ∧ a.nonce ≤ i32Max ∧
      check_difficulty (calculate_sha256 (encodeString (p.block.with_nonce a.nonce)))
        p.difficulty = true := by
  rcases h with h | h
  · cases hfb : find_any_block p.block p.difficulty with
    | none => simp [solve, hfb] at h
    | some blk =>
      obtain ⟨j, hj, hblk, hval⟩ := findBlockAux_some p.block p.difficulty numNonces 0 blk hfb
      subst hblk
      have hs : solve p = Except.ok { nonce := ((0 + j : Nat) : Int) } := by
        simp [solve, hfb, Block.with_nonce, expectNonce]
      rw [hs] at h
      injection h with h'
      rw [← h']
      have hj' : j < 2147483648 := hj
      refine ⟨by show (0 : Int) ≤ ((0 + j : Nat) : Int); omega, by show ((0 + j : Nat) : Int) ≤ 2147483647; omega, ?_⟩
      exact hval
  · exact ⟨h.1, h.2.1, h.2.2⟩

theorem c3_answer_in_range_and_valid_witness :
    0 ≤ ({ nonce := 0 } : MiniMinerAnswer).nonce ∧
    ({ nonce := 0 } : MiniMinerAnswer).nonce ≤ i32Max ∧
    check_difficulty (calculate_sha256 (encodeString
      (exampleProblem0.block.with_nonce ({ nonce := 0 } : MiniMinerAnswer).nonce)))
      exampleProblem0.difficulty = true :=
  c3_answer_in_range_and_valid exampleProblem0 { nonce := 0 }
    (Or.inr ⟨by decide, by decide, by decide⟩)

/-- C4: `solve` reports its explicit not-found error exactly when no nonce in
`0..=i32::MAX` makes the block's hash meet the difficulty; success is an explicit
`Except.ok`, never a sentinel nonce. -/
theorem c4_error_iff_exhausted (p : MiniMinerProblem) :
    solve p = Except.error noBlockMsg ↔
      ∀ n : Int, 0 ≤ n → n ≤ i32Max →
        is_block_valid (p.block.with_nonce n) p.difficulty = false := by
  cases hfb : find_any_block p.block p.difficulty with
  | none =>
    simp only [solve, hfb]
    constructor
    · intro _ n hn0 hn1
      have hall := (findBlockAux_none_iff p.block p.difficulty numNonces 0).mp hfb
      have hn1' : n ≤ 2147483647 := hn1
      have hj := hall n.toNat (by show n.toNat < 2147483648; omega)
      rw [Nat.zero_add] at hj
      rw [show ((n.toNat : Nat) : Int) = n from by omega] at hj
      exact hj
    · intro _
      trivial
  | some blk =>
    obtain ⟨j, hj, hblk, hval⟩ := findBlockAux_some p.block p.difficulty numNonces 0 blk hfb
    constructor
    · intro h
      subst hblk
      simp [solve, hfb, Block.with_nonce, expectNonce, noBlockMsg] at h
    · intro hall
      have hj' : j < 2147483648 := hj
      have hfalse := hall ((0 + j : Nat) : Int) (by omega)
        (by show ((0 + j : Nat) : Int) ≤ 2147483647; omega)
      rw [← hblk] at hfalse
      rw [hval] at hfalse
      exact absurd hfalse (by simp)
/-- C6 counterexample: at difficulty 0 every candidate passes the check, so the
parallel `find_any` is also permitted to deliver nonce 1 — the code does not
guarantee that exactly nonce 0 (the numerically first candidate) is returned. -/
theorem c6_counterexample_nonce_one_possible :
    exampleProblem0.difficulty = 0 ∧
    okPossible exampleProblem0 { nonce := 1 } ∧
    ({ nonce := 1 } : MiniMinerAnswer).nonce ≠ 0 :=
  ⟨rfl, ⟨by decide, by decide, by decide⟩, by decide⟩

/-- C6 amended: at difficulty 0 the search always succeeds — the sequential first-fit
schedule returns nonce 0, and nonce 0 is among the results the parallel `find_any`
may deliver (though `find_any` is not obliged to pick it). -/
theorem c6_difficulty_zero_succeeds (p : MiniMinerProblem) (h : p.difficulty = 0) :
    solve p = Except.ok { nonce := 0 } ∧ okPossible p { nonce := 0 } := by
  have hvalid : ∀ n : Int, is_block_valid (p.block.with_nonce n) p.difficulty = true := by
    intro n
    rw [h]
    exact check_difficulty_zero _
  have hfirst : ∀ (fuel start : Nat),
      findBlockAux p.block p.difficulty (fuel + 1) start =
        some (p.block.with_nonce (start : Int)) := by
    intro fuel start
    simp only [findBlockAux]
    rw [if_pos (hvalid _)]
  have h1 : find_any_block p.block p.difficulty = some (p.block.with_nonce ((0 : Nat) : Int)) := by
    show findBlockAux p.block p.difficulty (2147483647 + 1) 0 = _
    exact hfirst 2147483647 0
  constructor
  · unfold solve
    rw [h1]
    rfl
  · exact ⟨by decide, by decide, hvalid 0⟩

theorem c6_difficulty_zero_succeeds_witness :
    solve exampleProblem0 = Except.ok { nonce := 0 } ∧
    okPossible exampleProblem0 { nonce := 0 } :=
  c6_difficulty_zero_succeeds exampleProblem0 rfl

/-- Searches over blocks that agree candidate-wise produce identical results. -/
theorem findBlockAux_congr (b1 b2 : Block) (difficulty : Nat)
    (hb : ∀ n : Int, b1.with_nonce n = b2.with_nonce n) (fuel start : Nat) :
    findBlockAux b1 difficulty fuel start = findBlockAux b2 difficulty fuel start := by
  induction fuel generalizing start with
  | zero => simp [findBlockAux]
  | succ f ih =>
    simp only [findBlockAux]
    rw [hb (start : Int), ih (start + 1)]

/-- C9: `solve` ignores the input block's nonce field — problems differing only in
`block.nonce` give the same sequential result, the same possible `find_any` answers,
and the same exhaustion condition, because every candidate's nonce is overwritten
by `with_nonce` before encoding. -/
theorem c9_input_nonce_irrelevant (p1 p2 : MiniMinerProblem)
    (hdata : p1.block.data = p2.block.data) (hdiff : p1.difficulty = p2.difficulty) :
    solve p1 = solve p2 ∧
    (∀ a, okPossible p1 a ↔ okPossible p2 a) ∧
    (exhausted p1 ↔ exhausted p2) := by
  have hwn : ∀ n : Int, p1.block.with_nonce n = p2.block.with_nonce n := by
    intro n
    simp [Block.with_nonce, hdata]
  have hfind : find_any_block p1.block p1.difficulty = find_any_block p2.block p2.difficulty := by
    rw [hdiff]
    exact findBlockAux_congr p1.block p2.block p2.difficulty hwn numNonces 0
  refine ⟨?_, ?_, ?_⟩
  · unfold solve
    rw [hfind]
  · intro a
    unfold okPossible
    rw [hwn a.nonce, hdiff]
  · unfold exhausted
    constructor
    · intro hall n h0 h1
      rw [← hwn n, ← hdiff]
      exact hall n h0 h1
    · intro hall n h0 h1
      rw [hwn n, hdiff]
      exact hall n h0 h1

theorem c9_input_nonce_irrelevant_witness :
    solve exampleProblem0 = solve exampleProblemNonce7 ∧
    (okPossible exampleProblem0 { nonce := 5 } ↔ okPossible exampleProblemNonce7 { nonce := 5 }) :=
  ⟨(c9_input_nonce_irrelevant exampleProblem0 exampleProblemNonce7 rfl rfl).1,
   (c9_input_nonce_irrelevant exampleProblem0 exampleProblemNonce7 rfl rfl).2.1 { nonce := 5 }⟩

/-- C10: every candidate the search examines is built by `with_nonce` and so carries
`nonce = some n`; hence on the success path the `expect` on the winning block's nonce
cannot fire — `solve` can never end in the `"None nonce"` panic. -/
theorem c10_winning_nonce_extraction_safe (p : MiniMinerProblem) :
    (∀ n : Int, (p.block.with_nonce n).nonce = some n) ∧
    (∀ blk, find_any_block p.block p.difficulty = some blk →
      ∃ n : Int, blk.nonce = some n ∧ expectNonce blk.nonce = Except.ok n) ∧
    solve p ≠ Except.error noneNonceMsg := by
  refine ⟨fun n => rfl, ?_, ?_⟩
  · intro blk h
    obtain ⟨j, hj, hblk, hval⟩ := findBlockAux_some p.block p.difficulty numNonces 0 blk h
    subst hblk
    exact ⟨((0 + j : Nat) : Int), rfl, rfl⟩
  · cases hfb : find_any_block p.block p.difficulty with
    | none =>
      simp only [solve, hfb]
      simp [noBlockMsg, noneNonceMsg]
    | some blk =>
      obtain ⟨j, hj, hblk, hval⟩ := findBlockAux_some p.block p.difficulty numNonces 0 blk hfb
      subst hblk
      simp [solve, hfb, Block.with_nonce, expectNonce]

theorem c10_winning_nonce_extraction_safe_witness :
    (exampleProblem0.block.with_nonce 3).nonce = some 3 ∧
    (∃ n : Int, (exampleProblem0.block.with_nonce ((0 : Nat) : Int)).nonce = some n ∧
      expectNonce ((exampleProblem0.block.with_nonce ((0 : Nat) : Int)).nonce) = Except.ok n) ∧
    solve exampleProblem0 ≠ Except.error noneNonceMsg :=
  ⟨(c10_winning_nonce_extraction_safe exampleProblem0).1 3,
   (c10_winning_nonce_extraction_safe exampleProblem0).2.1
      (exampleProblem0.block.with_nonce ((0 : Nat) : Int)) (by decide),
   (c10_winning_nonce_extraction_safe exampleProblem0).2.2⟩

/-- One entry renders exactly as the spec's `[payload, value]` pair. -/
theorem renderJson_data (e : Data) : renderJson (Data.toJson e) = specEntryString e := by
  show renderJson (Json.arr [Json.str e.data, Json.int e.nonce]) = _
  simp [renderJson, renderList, specEntryString, String.append_assoc]

/-- The entry list renders as the comma-joined pair layouts, order preserved. -/
theorem renderList_map_data (es : List Data) :
    renderList (es.map Data.toJson) = specJoin (es.map specEntryString) := by
  induction es with
  | nil => rfl
  | cons e rest ih =>
    cases rest with
    | nil => simp [renderList, specJoin, renderJson_data]
    | cons f rest2 =>
      simp only [List.map_cons] at ih ⊢
      simp only [renderList, specJoin]
      rw [renderJson_data, ih]

/-- C2: the canonical encoding hashed by `is_block_valid` is exactly the fixed
positional layout of the spec — `[payload, value]` pairs in original order, then
the block's nonce field, with no key reordering and no whitespace — a single
byte layout fully determined by `(entries, nonce)`. -/
theorem c2_canonical_encoding_layout (b : Block) :
    encodeString b = specCanonicalString b.data b.nonce ∧
    ∀ d, is_block_valid b d =
      check_difficulty (sha256Bytes (utf8Bytes (specCanonicalString b.data b.nonce))) d := by
  have hdata : escapeString ("data") = "\"data\"" := by decide
  have hnonce : escapeString ("nonce") = "\"nonce\"" := by decide
  have henc : encodeString b = specCanonicalString b.data b.nonce := by
    show renderJson (Block.toJson b) = _
    cases hn : b.nonce with
    | none =>
      simp [Block.toJson, nonceToJson, renderJson, renderFields, renderList_map_data,
            specCanonicalString, specNonceString, hdata, hnonce, hn, String.append_assoc]
      simp only [← String.append_assoc]
      simp
    | some n =>
      simp [Block.toJson, nonceToJson, renderJson, renderFields, renderList_map_data,
            specCanonicalString, specNonceString, hdata, hnonce, hn, String.append_assoc]
      simp only [← String.append_assoc]
      simp
      rw [String.append_assoc ("\x7b\"data\":[" ++ specJoin (List.map specEntryString b.data))
        ("],") ("\"nonce\":")]
      rfl
  refine ⟨henc, fun d => ?_⟩
  show check_difficulty (calculate_sha256 (encodeString b)) d = _
  rw [henc]
  rfl

/-- Decoding inverts encoding on each entry list. -/
theorem dataListFromJson_map (es : List Data) :
    dataListFromJson (es.map Data.toJson) = some es := by
  induction es with
  | nil => rfl
  | cons e rest ih =>
    simp only [List.map_cons, dataListFromJson, ih]
    rfl

/-- C8: decoding a block's canonical encoding reproduces its logical content
exactly — the same entries in the same order and the same nonce. -/
theorem c8_decode_encode_roundtrip (b : Block) :
    blockFromJson (Block.toJson b) = some b := by
  obtain ⟨bd, bn⟩ := b
  cases bn with
  | none =>
    show blockFromJson (Json.obj [("data", Json.arr (bd.map Data.toJson)),
      ("nonce", Json.null)]) = some { data := bd, nonce := none }
    simp [blockFromJson, lookupField, dataListFromJson_map, nonceFromJson]
  | some n =>
    show blockFromJson (Json.obj [("data", Json.arr (bd.map Data.toJson)),
      ("nonce", Json.int n)]) = some { data := bd, nonce := some n }
    simp [blockFromJson, lookupField, dataListFromJson_map, nonceFromJson]

end MiniMiner
